import Mathlib

/-!
Verification of the `multiset-hash` crate (`src/lib.rs`): an incremental,
order-independent multiset hash over the Ristretto prime-order group.

Shallow embedding notes.

* The struct `RistrettoHash<H>` holds a pending wide-hash state `hash : H`,
  a flag `updating : bool`, and a group accumulator `acc : RistrettoPoint`.
  The hash `H` is generic over the `Digest` trait contract: `H::default()`
  is the fresh state, `update` feeds bytes, and the finalized digest is a
  pure function of the concatenation of all bytes fed.  We therefore embed
  the pending hash state as the list of bytes fed so far, and fold the
  composition `RistrettoPoint::from_hash ∘ wide_hash` into one abstract
  function `fromHash : List Byte → G`.
* The Ristretto group is an external trusted primitive: a commutative
  group of prime order ℓ = 2^252 + 27742317777372353535851937790883648493.
  We embed it as an arbitrary `AddCommGroup G`; where a claim needs the
  order (multiplicity reduction mod ℓ) the torsion fact `∀ x, ℓ • x = 0`
  is an explicit hypothesis, discharged for the concrete witness group
  `ZMod ℓ`.
* `Scalar::from(multiplicity)` reduces the multiplicity modulo ℓ, and
  `Scalar * RistrettoPoint` is scalar multiplication, embedded as
  `(m % ℓ) • p` (`scalarFrom`).
* `compress` (canonical 32-byte point encoding) is an abstract function
  `compress : G → Out`; the merge claim additionally assumes a left
  inverse `decompress`, which is the contract of the canonical encoding.
* The two `panic!` calls are embedded as `Except.error` with a `Misuse`
  value naming the panic; a panic aborts before any field is written, so
  the erroring operation returns no successor state.
-/

set_option autoImplicit false

namespace MultisetHash

/-- A byte, as in Rust's `u8`. -/
abbrev Byte := Fin 256

/-- The order ℓ of the Ristretto group (the prime order of the
curve25519 basepoint subgroup). -/
def ristrettoOrder : ℕ := 2 ^ 252 + 27742317777372353535851937790883648493

/-- `Scalar::from(m: u64)` as a reduced natural number: scalars are
integers modulo the group order ℓ. -/
def scalarFrom (m : ℕ) : ℕ := m % ristrettoOrder

deriving instance DecidableEq for Except

/-- The two `panic!` conditions of `src/lib.rs`, by their messages:
`"add called before end_update"` and
`"end_update not called before finalizing"`. -/
inductive Misuse where
  | addCalledBeforeEndUpdate
  | endUpdateNotCalledBeforeFinalizing
  deriving DecidableEq

/-- The state of `RistrettoHash<H>`: the pending wide-hash state (embedded
as the bytes fed since the last commit), the `updating` flag, and the group
accumulator `acc`. -/
structure RistrettoHash (G : Type) where
  hash : List Byte
  updating : Bool
  acc : G
  deriving DecidableEq

namespace RistrettoHash

variable {G : Type} [AddCommGroup G]

/-- `RistrettoHash::<H>::default()` (the derived `Default`): fresh hash
state, `updating = false`, `acc = RistrettoPoint::default()` (identity). -/
def default (G : Type) [AddCommGroup G] : RistrettoHash G :=
  { hash := [], updating := false, acc := 0 }

/-- `Update::update` (`fn update(&mut self, data)`): sets `updating = true`
and feeds `data` into the pending wide-hash state. -/
def update (s : RistrettoHash G) (data : List Byte) : RistrettoHash G :=
  { s with updating := true, hash := s.hash ++ data }

/-- `RistrettoHash::end_update(multiplicity)`: clears `updating`, swaps the
pending hash state for a fresh one, maps the finalized wide digest to a
group element (`RistrettoPoint::from_hash`), and adds
`Scalar::from(multiplicity) * h_point` into `acc`. -/
def end_update (fromHash : List Byte → G) (s : RistrettoHash G) (m : ℕ) :
    RistrettoHash G :=
  { hash := [], updating := false,
    acc := s.acc + scalarFrom m • fromHash s.hash }

/-- `RistrettoHash::add(data, multiplicity)`: panics if `updating`,
otherwise feeds `data` into the inner hash state and calls `end_update`. -/
def add (fromHash : List Byte → G) (s : RistrettoHash G) (data : List Byte)
    (m : ℕ) : Except Misuse (RistrettoHash G) :=
  if s.updating then
    .error .addCalledBeforeEndUpdate
  else
    .ok (end_update fromHash { s with hash := s.hash ++ data } m)

/-- `FixedOutput::finalize_into` (consumes `self`): panics if `updating`,
otherwise writes the compressed encoding of `acc` into the output. -/
def finalize_into {Out : Type} (compress : G → Out) (s : RistrettoHash G) :
    Except Misuse Out :=
  if s.updating then
    .error .endUpdateNotCalledBeforeFinalizing
  else
    .ok (compress s.acc)

/-- `Reset::reset`: resets the inner hash state, clears `updating`, and
restores `acc` to the identity. -/
def reset (_s : RistrettoHash G) : RistrettoHash G :=
  { hash := [], updating := false, acc := 0 }

/-- `FixedOutput::finalize_into_reset`: panics if `updating`, otherwise
writes the compressed encoding of `acc` and resets the instance; returns
the digest together with the successor state. -/
def finalize_into_reset {Out : Type} (compress : G → Out)
    (s : RistrettoHash G) : Except Misuse (Out × RistrettoHash G) :=
  if s.updating then
    .error .endUpdateNotCalledBeforeFinalizing
  else
    .ok (compress s.acc, reset s)

/-- Run a sequence of `add` calls, stopping at the first misuse error. -/
def runAdds (fromHash : List Byte → G) :
    RistrettoHash G → List (List Byte × ℕ) → Except Misuse (RistrettoHash G)
  | s, [] => .ok s
  | s, (x, m) :: rest =>
    (add fromHash s x m).bind (fun t => runAdds fromHash t rest)

/-- The group contribution of one `add (x, m)` call:
`Scalar::from(m) * RistrettoPoint::from_hash(wide_hash(x))`. -/
def contrib (fromHash : List Byte → G) (p : List Byte × ℕ) : G :=
  scalarFrom p.2 • fromHash p.1

/-- The final digest of a sequence of `add` calls on a fresh instance:
`default()` then the adds, then `finalize`. -/
def digestOfAdds {Out : Type} (fromHash : List Byte → G) (compress : G → Out)
    (l : List (List Byte × ℕ)) : Except Misuse Out :=
  (runAdds fromHash (default G) l).bind (finalize_into compress)

end RistrettoHash

section Lemmas

open RistrettoHash

variable {G : Type} [AddCommGroup G] {Out : Type}

/-- Computation rule for `Except.bind` on a success value. -/
theorem ok_bind {ε α β : Type} (a : α) (f : α → Except ε β) :
    (Except.ok a : Except ε α).bind f = f a := rfl

/-- From a state that is idle with an empty pending hash state, a sequence
of `add` calls always succeeds and accumulates the sum of the per-element
group contributions. -/
theorem runAdds_ok (fromHash : List Byte → G) (l : List (List Byte × ℕ))
    (s : RistrettoHash G) (h1 : s.updating = false) (h2 : s.hash = []) :
    runAdds fromHash s l =
      .ok { hash := [], updating := false,
            acc := s.acc + (l.map (contrib fromHash)).sum } := by
  induction l generalizing s with
  | nil =>
    obtain ⟨hs, us, a⟩ := s
    simp only at h1 h2
    subst h1; subst h2
    simp [runAdds]
  | cons p rest ih =>
    obtain ⟨x, m⟩ := p
    rw [runAdds, add, if_neg (by simp [h1])]
    simp only [ok_bind]
    rw [ih _ rfl rfl]
    simp [end_update, contrib, h2, add_assoc]

/-- Reduction of the multiplicity modulo ℓ is invisible at the group
level: `scalarFrom m • x = m • x` in any group annihilated by the
Ristretto order ℓ (the group contract: every point has order dividing ℓ). -/
theorem scalarFrom_smul (htor : ∀ x : G, ristrettoOrder • x = 0) (m : ℕ)
    (x : G) : scalarFrom m • x = m • x := by
  conv_rhs => rw [← Nat.div_add_mod m ristrettoOrder]
  rw [add_nsmul, mul_comm, mul_nsmul, htor, zero_add]
  rfl

end Lemmas

section WitnessInstances

/-!
Concrete instantiations of the abstract primitives, used only to witness
the theorems at concrete inputs: the integers as a commutative group with
a concrete hash-to-group map, and `ZMod ristrettoOrder` where the claim
needs the actual group order.
-/

/-- A concrete stand-in for `from_hash ∘ wide_hash` over the group ℤ. -/
def wFromHash : List Byte → ℤ := fun l => ((l.map Fin.val).sum : ℕ)

/-- A concrete stand-in for point compression over ℤ. -/
def wCompress : ℤ → ℤ := fun x => x

/-- A concrete stand-in for `from_hash ∘ wide_hash` over `ZMod ℓ`. -/
def zFromHash : List Byte → ZMod ristrettoOrder :=
  fun l => ((l.map Fin.val).sum : ℕ)

/-- A concrete stand-in for point compression over `ZMod ℓ`. -/
def zCompress : ZMod ristrettoOrder → ZMod ristrettoOrder := fun x => x

/-- `ZMod ℓ` satisfies the group-order contract: ℓ annihilates it. -/
theorem zmod_torsion (x : ZMod ristrettoOrder) : ristrettoOrder • x = 0 := by
  rw [nsmul_eq_mul, ZMod.natCast_self, zero_mul]

end WitnessInstances

section Claims

open RistrettoHash

/-- C1: Order independence: for every sequence of (bytes, multiplicity)
pairs added via `add` to a fresh accumulator and finalized, the final
digest is invariant under any permutation of the `add` calls. -/
theorem order_independence {G : Type} [AddCommGroup G] {Out : Type}
    (fromHash : List Byte → G) (compress : G → Out)
    (l1 l2 : List (List Byte × ℕ)) (hperm : l1.Perm l2) :
    digestOfAdds fromHash compress l1 = digestOfAdds fromHash compress l2 := by
  unfold digestOfAdds
  rw [runAdds_ok fromHash l1 _ rfl rfl, runAdds_ok fromHash l2 _ rfl rfl]
  simp only [ok_bind]
  rw [(hperm.map (contrib fromHash)).sum_eq]

/-- Witness for C1: `add("A",1); add("B",1)` and `add("B",1); add("A",1)`
give the same final digest. -/
theorem order_independence_witness :
    ([([(65 : Byte)], 1), ([(66 : Byte)], 1)] : List (List Byte × ℕ)).Perm
        [([(66 : Byte)], 1), ([(65 : Byte)], 1)] ∧
    digestOfAdds wFromHash wCompress [([(65 : Byte)], 1), ([(66 : Byte)], 1)] =
      digestOfAdds wFromHash wCompress [([(66 : Byte)], 1), ([(65 : Byte)], 1)] :=
  ⟨by decide, order_independence wFromHash wCompress _ _ (by decide)⟩

/-- C2: Split invariance: from any accumulator state in `Idle`
(`updating = false`), `add(p ++ q, m)` yields the same final digest as
`update(p); update(q); end_update(m)`: the wide hash sees only the full
concatenation of the fed bytes, not the chunking. -/
theorem split_invariance {G : Type} [AddCommGroup G] {Out : Type}
    (fromHash : List Byte → G) (compress : G → Out) (s : RistrettoHash G)
    (h : s.updating = false) (p q : List Byte) (m : ℕ) :
    (add fromHash s (p ++ q) m).bind (finalize_into compress) =
      finalize_into compress (end_update fromHash ((s.update p).update q) m) := by
  rw [add, if_neg (by simp [h]), ok_bind]
  simp [update, end_update, finalize_into, List.append_assoc]

/-- Witness for C2 at a concrete idle state, `p = "A"`, `q = "B"`, `m = 2`. -/
theorem split_invariance_witness :
    (⟨[], false, (5 : ℤ)⟩ : RistrettoHash ℤ).updating = false ∧
    (add wFromHash (⟨[], false, (5 : ℤ)⟩ : RistrettoHash ℤ)
          ([(65 : Byte)] ++ [(66 : Byte)]) 2).bind (finalize_into wCompress) =
      finalize_into wCompress
        (end_update wFromHash
          (((⟨[], false, (5 : ℤ)⟩ : RistrettoHash ℤ).update
            [(65 : Byte)]).update [(66 : Byte)]) 2) :=
  ⟨rfl, split_invariance wFromHash wCompress _ rfl [(65 : Byte)] [(66 : Byte)] 2⟩

/-- C3: Multiplicity additivity: for all `a b : ℕ` and any byte string
`x`, `add(x, a+b)` on a fresh accumulator yields the same final digest as
`add(x, a); add(x, b)` on a fresh accumulator.  The hypothesis `htor` is
the group contract that every element's order divides the Ristretto group
order ℓ (multiplicities are scalars mod ℓ). -/
theorem multiplicity_additivity {G : Type} [AddCommGroup G] {Out : Type}
    (fromHash : List Byte → G) (compress : G → Out)
    (htor : ∀ x : G, ristrettoOrder • x = 0) (x : List Byte) (a b : ℕ) :
    digestOfAdds fromHash compress [(x, a + b)] =
      digestOfAdds fromHash compress [(x, a), (x, b)] := by
  unfold digestOfAdds
  rw [runAdds_ok _ _ _ rfl rfl, runAdds_ok _ _ _ rfl rfl]
  simp only [ok_bind, List.map_cons, List.map_nil, List.sum_cons,
    List.sum_nil, contrib]
  rw [scalarFrom_smul htor, scalarFrom_smul htor, scalarFrom_smul htor,
    add_nsmul]
  simp [finalize_into, add_assoc]

/-- Witness for C3 over `ZMod ℓ` at `x = "A"`, `a = 1`, `b = 2`. -/
theorem multiplicity_additivity_witness :
    (∀ y : ZMod ristrettoOrder, ristrettoOrder • y = 0) ∧
    digestOfAdds zFromHash zCompress [([(65 : Byte)], 1 + 2)] =
      digestOfAdds zFromHash zCompress [([(65 : Byte)], 1), ([(65 : Byte)], 2)] :=
  ⟨zmod_torsion,
    multiplicity_additivity zFromHash zCompress zmod_torsion [(65 : Byte)] 1 2⟩

/-- C4: Misuse detection for `add`: from every state with
`updating = true` (an unpaired `update`), `add` fails with the misuse
error `addCalledBeforeEndUpdate`.  In this embedding the error carries no
successor state: the panic occurs before any field is written, so the
caller's state — in particular `acc` — is untouched, and the in-flight
bytes are never combined with the new call's bytes. -/
theorem add_misuse {G : Type} [AddCommGroup G] (fromHash : List Byte → G)
    (s : RistrettoHash G) (h : s.updating = true) (data : List Byte) (m : ℕ) :
    add fromHash s data m = .error .addCalledBeforeEndUpdate := by
  simp [add, h]

/-- Witness for C4 at a concrete accumulating state. -/
theorem add_misuse_witness :
    (⟨[(65 : Byte)], true, (5 : ℤ)⟩ : RistrettoHash ℤ).updating = true ∧
    add wFromHash (⟨[(65 : Byte)], true, (5 : ℤ)⟩ : RistrettoHash ℤ)
        [(66 : Byte)] 1 = .error .addCalledBeforeEndUpdate :=
  ⟨rfl, add_misuse wFromHash _ rfl [(66 : Byte)] 1⟩

/-- C5: Misuse detection for finalize: from every state with
`updating = true`, both `finalize_into` and `finalize_into_reset` fail
with the misuse error `endUpdateNotCalledBeforeFinalizing`; the error
carries no digest and no successor state, so `acc` is not mutated. -/
theorem finalize_misuse {G : Type} [AddCommGroup G] {Out : Type}
    (compress : G → Out) (s : RistrettoHash G) (h : s.updating = true) :
    finalize_into compress s = .error .endUpdateNotCalledBeforeFinalizing ∧
    finalize_into_reset compress s =
      .error .endUpdateNotCalledBeforeFinalizing := by
  constructor <;> simp [finalize_into, finalize_into_reset, h]

/-- Witness for C5 at a concrete accumulating state. -/
theorem finalize_misuse_witness :
    (⟨[(65 : Byte)], true, (5 : ℤ)⟩ : RistrettoHash ℤ).updating = true ∧
    finalize_into wCompress (⟨[(65 : Byte)], true, (5 : ℤ)⟩ : RistrettoHash ℤ) =
        .error .endUpdateNotCalledBeforeFinalizing ∧
    finalize_into_reset wCompress
        (⟨[(65 : Byte)], true, (5 : ℤ)⟩ : RistrettoHash ℤ) =
      .error .endUpdateNotCalledBeforeFinalizing :=
  ⟨rfl, finalize_misuse wCompress _ rfl⟩

/-- C6: Reset correctness: from any state whatsoever (any prior history,
Idle or Accumulating), `reset` restores the fresh initial state, so
finalizing the reset instance yields exactly the digest of a freshly
constructed instance; and whenever `finalize_into_reset` succeeds (its
precondition `updating = false`), it too leaves the instance in the
fresh initial state, whose digest is that of a fresh instance. -/
theorem reset_correctness {G : Type} [AddCommGroup G] {Out : Type}
    (compress : G → Out) (s : RistrettoHash G) :
    s.reset = RistrettoHash.default G ∧
    finalize_into compress s.reset =
      finalize_into compress (RistrettoHash.default G) ∧
    (s.updating = false →
      (finalize_into_reset compress s).map Prod.snd =
          .ok (RistrettoHash.default G) ∧
      (finalize_into_reset compress s).map
          (fun p => finalize_into compress p.2) =
        .ok (finalize_into compress (RistrettoHash.default G))) := by
  refine ⟨rfl, rfl, fun h => ⟨?_, ?_⟩⟩ <;>
    simp [finalize_into_reset, finalize_into, reset, RistrettoHash.default, h,
      Except.map]

/-- Witness for C6: reset from a concrete accumulating state (unpaired
feed in flight), and `finalize_into_reset` from a concrete idle state
with a nonzero accumulator. -/
theorem reset_correctness_witness :
    (⟨[(65 : Byte)], true, (5 : ℤ)⟩ : RistrettoHash ℤ).reset =
        RistrettoHash.default ℤ ∧
    (⟨[], false, (7 : ℤ)⟩ : RistrettoHash ℤ).updating = false ∧
    ((finalize_into_reset wCompress (⟨[], false, (7 : ℤ)⟩ : RistrettoHash ℤ)).map
          Prod.snd = .ok (RistrettoHash.default ℤ) ∧
      (finalize_into_reset wCompress
            (⟨[], false, (7 : ℤ)⟩ : RistrettoHash ℤ)).map
          (fun p => finalize_into wCompress p.2) =
        .ok (finalize_into wCompress (RistrettoHash.default ℤ))) :=
  ⟨(reset_correctness wCompress
      (⟨[(65 : Byte)], true, (5 : ℤ)⟩ : RistrettoHash ℤ)).1,
    rfl,
    (reset_correctness wCompress
      (⟨[], false, (7 : ℤ)⟩ : RistrettoHash ℤ)).2.2 rfl⟩

/-- C7: Committing from `Idle` with nothing fed: for every state with
`updating = false` and an empty pending hash state, `end_update m`
succeeds and contributes `scalarFrom m • fromHash []` — the empty-string
element with multiplicity `m` — to the accumulator, and yields exactly
the state of `add("", m)`. -/
theorem commit_from_idle {G : Type} [AddCommGroup G] (fromHash : List Byte → G)
    (s : RistrettoHash G) (m : ℕ) (h1 : s.updating = false)
    (h2 : s.hash = []) :
    end_update fromHash s m =
      { hash := [], updating := false,
        acc := s.acc + scalarFrom m • fromHash [] } ∧
    add fromHash s [] m = .ok (end_update fromHash s m) := by
  constructor
  · simp [end_update, h2]
  · simp [add, h1, end_update]

/-- Witness for C7 at a concrete idle state with `m = 4`. -/
theorem commit_from_idle_witness :
    (⟨[], false, (5 : ℤ)⟩ : RistrettoHash ℤ).updating = false ∧
    (⟨[], false, (5 : ℤ)⟩ : RistrettoHash ℤ).hash = [] ∧
    (end_update wFromHash (⟨[], false, (5 : ℤ)⟩ : RistrettoHash ℤ) 4 =
        { hash := [], updating := false,
          acc := (5 : ℤ) + scalarFrom 4 • wFromHash [] } ∧
      add wFromHash (⟨[], false, (5 : ℤ)⟩ : RistrettoHash ℤ) [] 4 =
        .ok (end_update wFromHash (⟨[], false, (5 : ℤ)⟩ : RistrettoHash ℤ) 4)) :=
  ⟨rfl, rfl, commit_from_idle wFromHash _ 4 rfl rfl⟩

/-- C8: Finalize is non-mutating and deterministic: from every state with
`updating = false`, `finalize_into` returns exactly the compressed
encoding of `acc`.  It is a pure function of the state (it consumes
`self` and writes only the output buffer), so repeated calls on the same
state yield identical output and no state is mutated. -/
theorem finalize_idle {G : Type} [AddCommGroup G] {Out : Type}
    (compress : G → Out) (s : RistrettoHash G) (h : s.updating = false) :
    finalize_into compress s = .ok (compress s.acc) := by
  simp [finalize_into, h]

/-- Witness for C8 at a concrete idle state. -/
theorem finalize_idle_witness :
    (⟨[], false, (5 : ℤ)⟩ : RistrettoHash ℤ).updating = false ∧
    finalize_into wCompress (⟨[], false, (5 : ℤ)⟩ : RistrettoHash ℤ) =
      .ok (wCompress 5) :=
  ⟨rfl, finalize_idle wCompress _ rfl⟩

/-- C9: Merge homomorphism: if two digests `d1`, `d2` are obtained from
two independently built add-sequences `l1`, `l2`, then decompressing
them, adding the group elements and recompressing gives exactly the
digest of the combined multiset `l1 ++ l2` (the multiset union; repeated
elements contribute summed multiplicities by linearity).  The hypothesis
`hinv` is the group contract that `decompress` inverts the canonical
compressed encoding. -/
theorem merge_homomorphism {G : Type} [AddCommGroup G] {Out : Type}
    (fromHash : List Byte → G) (compress : G → Out) (decompress : Out → G)
    (hinv : ∀ x : G, decompress (compress x) = x)
    (l1 l2 : List (List Byte × ℕ)) (d1 d2 : Out)
    (h1 : digestOfAdds fromHash compress l1 = .ok d1)
    (h2 : digestOfAdds fromHash compress l2 = .ok d2) :
    digestOfAdds fromHash compress (l1 ++ l2) =
      .ok (compress (decompress d1 + decompress d2)) := by
  unfold digestOfAdds at h1 h2 ⊢
  rw [runAdds_ok _ _ _ rfl rfl] at h1 h2 ⊢
  simp only [ok_bind, finalize_into, Bool.false_eq_true, if_false,
    Except.ok.injEq] at h1 h2 ⊢
  subst h1; subst h2
  rw [hinv, hinv]
  simp [RistrettoHash.default, List.sum_append]

/-- Witness for C9 merging `{"A" ↦ 1}` with `{"B" ↦ 2}` over ℤ. -/
theorem merge_homomorphism_witness :
    (∀ x : ℤ, wCompress x = x) ∧
    digestOfAdds wFromHash wCompress [([(65 : Byte)], 1)] = .ok 65 ∧
    digestOfAdds wFromHash wCompress [([(66 : Byte)], 2)] = .ok 132 ∧
    digestOfAdds wFromHash wCompress
        ([([(65 : Byte)], 1)] ++ [([(66 : Byte)], 2)]) =
      .ok (wCompress (wCompress 65 + wCompress 132)) :=
  ⟨fun _ => rfl, by decide, by decide,
    merge_homomorphism wFromHash wCompress wCompress (fun _ => rfl) _ _ 65 132
      (by decide) (by decide)⟩

/-- C10: Feeding an empty byte string still opens a partial element: from
every idle state, `update []` sets `updating = true` while contributing
no bytes to the pending element, so a subsequent `add` or `finalize`
fails with the respective misuse error. -/
theorem update_empty_opens_pending {G : Type} [AddCommGroup G] {Out : Type}
    (fromHash : List Byte → G) (compress : G → Out) (s : RistrettoHash G)
    (_h : s.updating = false) (data : List Byte) (m : ℕ) :
    (s.update []).updating = true ∧
    (s.update []).hash = s.hash ∧
    add fromHash (s.update []) data m = .error .addCalledBeforeEndUpdate ∧
    finalize_into compress (s.update []) =
      .error .endUpdateNotCalledBeforeFinalizing := by
  refine ⟨rfl, by simp [update], ?_, ?_⟩ <;>
    simp [add, update, finalize_into]

/-- Witness for C10 at a fresh instance. -/
theorem update_empty_opens_pending_witness :
    (RistrettoHash.default ℤ).updating = false ∧
    (((RistrettoHash.default ℤ).update []).updating = true ∧
      ((RistrettoHash.default ℤ).update []).hash =
        (RistrettoHash.default ℤ).hash ∧
      add wFromHash ((RistrettoHash.default ℤ).update []) [(65 : Byte)] 1 =
        .error .addCalledBeforeEndUpdate ∧
      finalize_into wCompress ((RistrettoHash.default ℤ).update []) =
        .error .endUpdateNotCalledBeforeFinalizing) :=
  ⟨rfl, update_empty_opens_pending wFromHash wCompress _ rfl [(65 : Byte)] 1⟩

end Claims

end MultisetHash
